import Mathlib

/-!
# Fast2FA core — shallow embedding and verification

Embedding of the core of `2FA.py` (repository Eq52/Fast2FA): the Base32
decoder `TOTPGenerator.base32_decode`, the TOTP generator
`TOTPGenerator.generate_totp` (including executable SHA-1 and HMAC-SHA1,
modelling `hashlib.sha1` and `hmac.new`), the countdown expression
`30 - (int(time.time()) % 30)`, and the store operations of
`TwoFactorAuthApp` (`add_verifier`, `delete_verifier`, `import_data`,
`clear_all`, `load_verifiers`, `save_verifiers`).

Bytes are modelled as `Nat` below 256, byte strings as `List Nat`,
machine words as `Nat` reduced mod `2 ^ 32` where the corresponding
operation would overflow.
-/

namespace Fast2FA

/-! ## SHA-1 (models `hashlib.sha1`) -/

/-- Truncation to a 32-bit word. -/
def w32 (x : Nat) : Nat := x % 4294967296

/-- Left rotation of a 32-bit word by `s` bits (`0 < s < 32`). -/
def rotl (s x : Nat) : Nat := ((x <<< s) ||| (x >>> (32 - s))) % 4294967296

/-- The five-word SHA-1 chaining state. -/
structure Sha1State where
  a : Nat
  b : Nat
  c : Nat
  d : Nat
  e : Nat

/-- SHA-1 round function `f_i(b, c, d)`; bitwise NOT within 32 bits is
`xor` with `0xFFFFFFFF`. -/
def sha1F (i b c d : Nat) : Nat :=
  if i < 20 then (b &&& c) ||| ((b ^^^ 4294967295) &&& d)
  else if i < 40 then b ^^^ c ^^^ d
  else if i < 60 then (b &&& c) ||| (b &&& d) ||| (c &&& d)
  else b ^^^ c ^^^ d

/-- SHA-1 round constant `K_i`. -/
def sha1K (i : Nat) : Nat :=
  if i < 20 then 0x5A827999
  else if i < 40 then 0x6ED9EBA1
  else if i < 60 then 0x8F1BBCDC
  else 0xCA62C1D6

/-- Next word of the SHA-1 message schedule from the words produced so far. -/
def sha1NextW (ws : List Nat) : Nat :=
  let n := ws.length
  rotl 1 (ws.getD (n - 3) 0 ^^^ ws.getD (n - 8) 0 ^^^ ws.getD (n - 14) 0 ^^^ ws.getD (n - 16) 0)

/-- Extend the message schedule by `n` further words. -/
def extendW : Nat → List Nat → List Nat
  | 0, ws => ws
  | n + 1, ws => extendW n (ws ++ [sha1NextW ws])

/-- One SHA-1 round. -/
def sha1Round (s : Sha1State) (iw : Nat × Nat) : Sha1State :=
  let temp := w32 (rotl 5 s.a + sha1F iw.1 s.b s.c s.d + s.e + sha1K iw.1 + iw.2)
  ⟨temp, s.a, rotl 30 s.b, s.c, s.d⟩

/-- SHA-1 compression of one 16-word block into the chaining state. -/
def sha1Compress (h : Sha1State) (block : List Nat) : Sha1State :=
  let ws := extendW 64 block
  let s := ws.enum.foldl (fun s iw => sha1Round s iw) h
  ⟨w32 (h.a + s.a), w32 (h.b + s.b), w32 (h.c + s.c), w32 (h.d + s.d), w32 (h.e + s.e)⟩

/-- Big-endian bytes (most significant first) of the `k`-byte value `n`. -/
def bytesBE : Nat → Nat → List Nat
  | 0, _ => []
  | k + 1, n => bytesBE k (n >>> 8) ++ [n % 256]

/-- Group a byte string into big-endian 32-bit words; a trailing group of
fewer than 4 bytes is never present for the 64-byte blocks this is used on. -/
def bytesToWords : List Nat → List Nat
  | b0 :: b1 :: b2 :: b3 :: rest =>
      ((b0 <<< 24) ||| (b1 <<< 16) ||| (b2 <<< 8) ||| b3) :: bytesToWords rest
  | _ => []

/-- Split a byte string into 64-byte blocks; `fuel` bounds the recursion
and is instantiated with the length of the list. -/
def chunk64 : Nat → List Nat → List (List Nat)
  | 0, _ => []
  | fuel + 1, bytes =>
      if bytes.isEmpty then [] else bytes.take 64 :: chunk64 fuel (bytes.drop 64)

/-- SHA-1 padding: `0x80`, zeros to 56 mod 64, then the bit length as 8
big-endian bytes. -/
def sha1Pad (msg : List Nat) : List Nat :=
  msg ++ [0x80] ++ List.replicate ((119 - msg.length % 64) % 64) 0
      ++ bytesBE 8 (msg.length * 8)

/-- SHA-1 initial chaining state. -/
def sha1Init : Sha1State := ⟨0x67452301, 0xEFCDAB89, 0x98BADCFE, 0x10325476, 0xC3D2E1F0⟩

/-- The four big-endian bytes of a 32-bit word. -/
def wordBytes (x : Nat) : List Nat := [x >>> 24 % 256, x >>> 16 % 256, x >>> 8 % 256, x % 256]

/-- SHA-1 digest (20 bytes) of a byte string. -/
def sha1 (msg : List Nat) : List Nat :=
  let padded := sha1Pad msg
  let h := ((chunk64 padded.length padded).map bytesToWords).foldl sha1Compress sha1Init
  wordBytes h.a ++ wordBytes h.b ++ wordBytes h.c ++ wordBytes h.d ++ wordBytes h.e

/-- HMAC-SHA1 (models `hmac.new(key, msg, hashlib.sha1).digest()`; block
size 64 bytes). -/
def hmacSha1 (key msg : List Nat) : List Nat :=
  let key1 := if 64 < key.length then sha1 key else key
  let key0 := key1 ++ List.replicate (64 - key1.length) 0
  sha1 ((key0.map (fun b => b ^^^ 0x5C)) ++ sha1 ((key0.map (fun b => b ^^^ 0x36)) ++ msg))

/-! ## Base32 decoding (`TOTPGenerator.base32_decode`) -/

/-- The 32-symbol alphabet `base32_chars` of the source. -/
def base32_chars : List Char := "ABCDEFGHIJKLMNOPQRSTUVWXYZ234567".toList

/-- `secret.upper().replace(' ', '').replace('=', '')`: uppercase, then
remove every space and every `=`. -/
def strip32 (secret : List Char) : List Char :=
  (secret.map Char.toUpper).filter (fun c => !(c == ' ') && !(c == '='))

/-- 5-bit value of an alphabet character, `base32_chars.index(c)`. -/
def symVal (c : Char) : Nat := base32_chars.indexOf c

/-- The five bits of `format(v, '05b')`, most significant first, as 0/1. -/
def to5bits (v : Nat) : List Nat :=
  [v >>> 4 &&& 1, v >>> 3 &&& 1, v >>> 2 &&& 1, v >>> 1 &&& 1, v &&& 1]

/-- The padding step of the source: `padding = 8 - len(secret) % 8`;
append that many `'A'` unless `padding == 8`. -/
def padTo8 (s : List Char) : List Char :=
  let padding := 8 - s.length % 8
  if padding ≠ 8 then s ++ List.replicate padding 'A' else s

/-- Slice a 0/1 bit string into bytes, 8 bits at a time most significant
first; a trailing group shorter than 8 bits is discarded. -/
def bitsToBytes : List Nat → List Nat
  | b0 :: b1 :: b2 :: b3 :: b4 :: b5 :: b6 :: b7 :: rest =>
      (((((((b0 * 2 + b1) * 2 + b2) * 2 + b3) * 2 + b4) * 2 + b5) * 2 + b6) * 2 + b7)
        :: bitsToBytes rest
  | _ => []

/-- `TOTPGenerator.base32_decode`: `none` models the raised
`ValueError("Invalid Base32 character")`. -/
def base32_decode (secret : List Char) : Option (List Nat) :=
  let s := strip32 secret
  if s.all (fun c => base32_chars.contains c) then
    some (bitsToBytes ((padTo8 s).flatMap (fun c => to5bits (symVal c))))
  else none

/-! ## TOTP generation (`TOTPGenerator.generate_totp`) -/

/-- `str(code).zfill(digits)`: left-pad with `'0'` to at least `digits`
characters. -/
def zfill (width : Nat) (s : String) : String :=
  ⟨List.replicate (width - s.length) '0' ++ s.data⟩

/-- `TOTPGenerator.generate_totp`, with the ambient `int(time.time())`
made an explicit argument `now`.  The source wraps the whole body in
`try/except` and returns the sentinel string `"ERROR"` on any exception:
a decode failure, the `ZeroDivisionError` from `time_step == 0`, or the
`struct.error` from packing a counter that does not fit in 8 bytes. -/
def generate_totp (secret : List Char) (digits : Nat) (time_step : Nat) (now : Nat) : String :=
  match base32_decode secret with
  | none => "ERROR"
  | some key =>
      if time_step = 0 then "ERROR"
      else
        let time_counter := now / time_step
        if 2 ^ 64 ≤ time_counter then "ERROR"
        else
          let mac := hmacSha1 key (bytesBE 8 time_counter)
          let offset := mac.getD (mac.length - 1) 0 &&& 0x0F
          let binary := ((mac.getD offset 0 &&& 0x7F) <<< 24) |||
                        ((mac.getD (offset + 1) 0 &&& 0xFF) <<< 16) |||
                        ((mac.getD (offset + 2) 0 &&& 0xFF) <<< 8) |||
                        (mac.getD (offset + 3) 0 &&& 0xFF)
          zfill digits (toString (binary % 10 ^ digits))

/-! ## Spec-side definitions for the CodeEngine (§4.2 of the spec)

These follow the specification's words, to be compared with the embedding
of the source above. -/

/-- Dynamic truncation as the spec words it: `offset = mac[19] & 0x0F`;
extract `mac[offset..offset+4]`, clear the high bit of the first of those
bytes (mask with `0x7F`), and pack the four bytes big-endian. -/
def spec_binary (mac : List Nat) : Nat :=
  match (mac.drop (mac.getD 19 0 &&& 0x0F)).take 4 with
  | b0 :: rest => ((b0 &&& 0x7F) :: rest).foldl (fun acc b => acc * 256 + b) 0
  | [] => 0

/-- `CodeEngine.generate` as the spec words it: HMAC-SHA1 of the decoded
key over the 8-byte big-endian counter `floor(t / timeStepSeconds)`,
dynamic truncation, reduction mod `10^digits`, decimal string left-padded
with zeros to `digits` characters. -/
def spec_generate (key : List Nat) (digits time_step now : Nat) : String :=
  zfill digits (toString (spec_binary (hmacSha1 key (bytesBE 8 (now / time_step))) % 10 ^ digits))

/-- The Base32 text of the RFC 6238 test secret. -/
def rfc_secret : List Char := "GEZDGNBVGY3TQOJQGEZDGNBVGY3TQOJQ".toList

/-- The ASCII bytes of `"12345678901234567890"`. -/
def rfc_key : List Nat := "12345678901234567890".toList.map Char.toNat

/-! ## Spec-side definitions for the SymbolCodec (§4.1 of the spec) -/

/-- Slice a list into groups of `n`; `fuel` bounds the recursion and is
instantiated with the length of the list. -/
def chunksOf : Nat → Nat → List Nat → List (List Nat)
  | 0, _, _ => []
  | fuel + 1, n, l => if l.isEmpty then [] else l.take n :: chunksOf fuel n (l.drop n)

/-- Value of a group of bits, most significant first. -/
def bitVal (g : List Nat) : Nat := g.foldl (fun a b => a * 2 + b) 0

/-- `SymbolCodec.decode` as the spec words it: uppercase; strip spaces and
`=`; fail if any remaining character is outside the alphabet; right-pad
with the zero-valued symbol until the count is a multiple of 8;
concatenate the 5-bit values MSB-first; slice into 8-bit groups,
discarding any trailing group shorter than 8 bits. -/
def spec_decode (text : List Char) : Option (List Nat) :=
  let s := (text.map Char.toUpper).filter (fun c => !(c == ' ') && !(c == '='))
  if s.all (fun c => base32_chars.contains c) then
    let bits := (s ++ List.replicate ((8 - s.length % 8) % 8) 'A').flatMap
      (fun c => to5bits (symVal c))
    some (((chunksOf bits.length 8 bits).filter (fun g => g.length == 8)).map bitVal)
  else none

/-! ## RefreshClock -/

/-- The countdown expression `30 - (int(time.time()) % 30)` of
`CircularProgressBar.draw` and `VerifierCard.update_code`, with
`int(time.time())` made the explicit argument `now`. -/
def seconds_left (now : Nat) : Nat := 30 - now % 30

/-- Modelled from the spec: `RefreshClock.secondsRemaining(timeStepSeconds,
atEpochSeconds) = timeStepSeconds - (floor(atEpochSeconds) mod
timeStepSeconds)`.  The source only contains the hard-coded instance
`timeStepSeconds = 30` (the `seconds_left` expression above); the general
function is missing from the source and is taken from the spec's formula.
`now` is the already-floored epoch time, as produced by `int(time.time())`. -/
def secondsRemaining (time_step now : Nat) : Nat := time_step - now % time_step

/-! ## The secret-record store (`TwoFactorAuthApp`)

`self.verifiers` is whatever `json.load` produced, so store entries are
modelled as JSON values. -/

/-- JSON values, modelling what `json.load`/`json.dump` handle. -/
inductive JVal where
  | jnull : JVal
  | jbool : Bool → JVal
  | jnum : Int → JVal
  | jstr : String → JVal
  | jarr : List JVal → JVal
  | jobj : List (String × JVal) → JVal

/-- The failure conditions the store operations surface via `messagebox`
dialogs in the source (`None` below means no failure was shown). -/
inductive StoreError where
  | emptyName : StoreError
  | emptyKey : StoreError
  | invalidKey : StoreError
  | invalidFormat : StoreError
  | badItem : StoreError
deriving DecidableEq

/-- Field lookup in a JSON object (`item['k']` / `'k' in item`). -/
def jlookup (k : String) : List (String × JVal) → Option JVal
  | [] => none
  | (k', v) :: rest => if k' = k then some v else jlookup k rest

/-- The per-item validation of `TwoFactorAuthApp.import_data`:
`isinstance(item, dict) and 'name' in item and 'key' in item`. -/
def item_ok : JVal → Bool
  | .jobj fs => (jlookup "name" fs).isSome && (jlookup "key" fs).isSome
  | _ => false

/-- A stored record whose `key` field is a string that Base32-decodes
successfully (the invariant claimed by §3 of the spec). -/
def record_ok : JVal → Bool
  | .jobj fs =>
      match jlookup "key" fs with
      | some (.jstr k) => (base32_decode k.toList).isSome
      | _ => false
  | _ => false

/-- The spec's store invariant: every stored record's secret decodes. -/
def storeOK (vs : List JVal) : Bool := vs.all record_ok

/-- `TwoFactorAuthApp.add_verifier`, acting on `self.verifiers`; `name`
and `key` are the entry contents after `.strip()`.  The source rejects an
empty name or the placeholder text, an empty key or its placeholder, and
a key that `base32_decode` raises on; otherwise it appends
`{"name": name, "key": key}` and saves. -/
def add_verifier (vs : List JVal) (name key : String) : List JVal × Option StoreError :=
  if name = "" ∨ name = "例如: GitHub" then (vs, some .emptyName)
  else if key = "" ∨ key = "输入2FA密钥" then (vs, some .emptyKey)
  else
    match base32_decode key.toList with
    | none => (vs, some .invalidKey)
    | some _ => (vs ++ [.jobj [("name", .jstr name), ("key", .jstr key)]], none)

/-- `TwoFactorAuthApp.delete_verifier`: `if 0 <= index < len(self.verifiers):
pop(index)` and save; any other index silently does nothing. -/
def delete_verifier (vs : List JVal) (index : Int) : List JVal × Option StoreError :=
  if 0 ≤ index ∧ index < (vs.length : Int) then (vs.eraseIdx index.toNat, none)
  else (vs, none)

/-- `TwoFactorAuthApp.import_data`, from the parsed JSON of the chosen
file onward (confirmation dialog answered yes): reject a non-list with an
error dialog; reject the whole import if any item is not a dict carrying
both a `name` and a `key` field; otherwise replace `self.verifiers`
wholesale and save. -/
def import_data (vs : List JVal) (input : JVal) : List JVal × Option StoreError :=
  match input with
  | .jarr items => if items.all item_ok then (items, none) else (vs, some .badItem)
  | _ => (vs, some .invalidFormat)

/-- `TwoFactorAuthApp.clear_all` (confirmation answered yes): an empty
store is left as is (only an info dialog), otherwise the store becomes
empty and is saved. -/
def clear_all (vs : List JVal) : List JVal × Option StoreError :=
  if vs.isEmpty then (vs, none) else ([], none)

/-- Backing-storage model for `verifiers.json`: `none` = the file does not
exist; `some none` = the file exists but its content fails to parse as
JSON; `some (some v)` = the file exists and parses to `v`. -/
def Storage : Type := Option (Option JVal)

/-- `TwoFactorAuthApp.load_verifiers`: return the parsed JSON if the file
exists and parses; return `[]` when the file is absent; on any exception
(in particular a JSON parse failure on an existing file) show a warning
and return `[]`. -/
def load_verifiers : Option (Option JVal) → JVal
  | some (some v) => v
  | some none => .jarr []
  | none => .jarr []

/-- `TwoFactorAuthApp.save_verifiers` writes `json.dump(self.verifiers)`
into `open(self.data_file, 'w')`: the completed write leaves storage
parsing to the saved value. -/
def save_verifiers (v : JVal) : Option (Option JVal) := some (some v)

/-- Crash-step model of `save_verifiers`: `open(..., 'w')` truncates the
file in place before `json.dump` writes the new text, so the storage
states observable if the process dies during the save are the truncated
file (which no longer parses as JSON) and the completed write.  There is
no write-to-temporary-then-rename step in the source. -/
def save_steps (v : JVal) : List (Option (Option JVal)) := [some none, some (some v)]

/-- An import item that passes the source's shape validation although its
secret does not decode (`'1'` is outside the alphabet). -/
def bad_item : JVal := .jobj [("name", .jstr "x"), ("key", .jstr "1")]

/-- An import item with an empty name and an undecodable secret, yet of
valid shape. -/
def bad_item2 : JVal := .jobj [("name", .jstr ""), ("key", .jstr "0")]

/-- A well-formed stored record. -/
def sample_rec : JVal := .jobj [("name", .jstr "GitHub"), ("key", .jstr "GEZDGNBV")]

/-! ## Helper lemmas -/

set_option maxRecDepth 200000

theorem wordBytes_lt {b : Nat} (x : Nat) (h : b ∈ wordBytes x) : b < 256 := by
  simp only [wordBytes, List.mem_cons, List.not_mem_nil, or_false] at h
  rcases h with rfl | rfl | rfl | rfl <;> exact Nat.mod_lt _ (by norm_num)

theorem sha1_length (msg : List Nat) : (sha1 msg).length = 20 := by
  simp [sha1, wordBytes]

theorem sha1_lt (msg : List Nat) : ∀ b ∈ sha1 msg, b < 256 := by
  intro b hb
  simp only [sha1, List.mem_append] at hb
  rcases hb with (((hb | hb) | hb) | hb) | hb <;> exact wordBytes_lt _ hb

theorem hmacSha1_length (key msg : List Nat) : (hmacSha1 key msg).length = 20 :=
  sha1_length _

theorem hmacSha1_lt (key msg : List Nat) : ∀ b ∈ hmacSha1 key msg, b < 256 :=
  sha1_lt _

theorem getD_lt_256 (l : List Nat) (i : Nat) (hl : ∀ b ∈ l, b < 256) : l.getD i 0 < 256 := by
  by_cases h : i < l.length
  · have : l.getD i 0 = l[i] := by simp [List.getD_eq_getElem?_getD, List.getElem?_eq_getElem h]
    rw [this]
    exact hl _ (List.getElem_mem h)
  · have : l.getD i 0 = 0 := by
      simp [List.getD_eq_getElem?_getD, List.getElem?_eq_none (by omega : l.length ≤ i)]
    rw [this]
    norm_num

theorem drop_take_four (i : Nat) (l : List Nat) (h : i + 4 ≤ l.length) :
    (l.drop i).take 4 = [l.getD i 0, l.getD (i + 1) 0, l.getD (i + 2) 0, l.getD (i + 3) 0] := by
  induction i generalizing l with
  | zero =>
      rcases l with _ | ⟨b0, l⟩
      · simp at h
      rcases l with _ | ⟨b1, l⟩
      · simp at h
      rcases l with _ | ⟨b2, l⟩
      · simp at h
      rcases l with _ | ⟨b3, l⟩
      · simp at h
      simp [List.getD]
  | succ i ih =>
      rcases l with _ | ⟨x, l⟩
      · simp at h
      rw [show i + 1 + 2 = (i + 2) + 1 by omega, show i + 1 + 3 = (i + 3) + 1 by omega]
      simp only [List.drop_succ_cons, List.getD_cons_succ]
      exact ih l (by simp at h; omega)

theorem and255_eq {x : Nat} (h : x < 256) : x &&& 255 = x := by
  simpa using Nat.and_pow_two_sub_one_of_lt_two_pow (n := 8) h

theorem pack4_or_eq (a0 c1 c2 c3 : Nat) (_h0 : a0 < 128) (h1 : c1 < 256) (h2 : c2 < 256)
    (h3 : c3 < 256) :
    (a0 <<< 24) ||| (c1 <<< 16) ||| (c2 <<< 8) ||| c3
      = ((a0 * 256 + c1) * 256 + c2) * 256 + c3 := by
  have p8 : (2 : Nat) ^ 8 = 256 := by norm_num
  have p16 : (2 : Nat) ^ 16 = 65536 := by norm_num
  have p24 : (2 : Nat) ^ 24 = 16777216 := by norm_num
  have e2 : 256 * c2 + c3 = c2 <<< 8 ||| c3 := by
    rw [Nat.shiftLeft_eq, Nat.mul_comm c2, ← p8]
    exact Nat.mul_add_lt_is_or (by rw [p8]; exact h3) c2
  have e1 : 65536 * c1 + (256 * c2 + c3) = c1 <<< 16 ||| (c2 <<< 8 ||| c3) := by
    rw [← e2, Nat.shiftLeft_eq, Nat.mul_comm c1, ← p16]
    exact Nat.mul_add_lt_is_or (by rw [p16]; omega) c1
  have e0 : 16777216 * a0 + (65536 * c1 + (256 * c2 + c3))
      = a0 <<< 24 ||| (c1 <<< 16 ||| (c2 <<< 8 ||| c3)) := by
    rw [← e1, Nat.shiftLeft_eq, Nat.mul_comm a0, ← p24]
    exact Nat.mul_add_lt_is_or (by rw [p24]; omega) a0
  rw [Nat.or_assoc, Nat.or_assoc, ← e0]
  ring

theorem binary_eq (mac : List Nat) (hlen : mac.length = 20) (hlt : ∀ b ∈ mac, b < 256) :
    ((mac.getD (mac.getD (mac.length - 1) 0 &&& 0x0F) 0 &&& 0x7F) <<< 24) |||
    ((mac.getD ((mac.getD (mac.length - 1) 0 &&& 0x0F) + 1) 0 &&& 0xFF) <<< 16) |||
    ((mac.getD ((mac.getD (mac.length - 1) 0 &&& 0x0F) + 2) 0 &&& 0xFF) <<< 8) |||
    (mac.getD ((mac.getD (mac.length - 1) 0 &&& 0x0F) + 3) 0 &&& 0xFF)
      = spec_binary mac := by
  have h19 : mac.length - 1 = 19 := by omega
  rw [h19]
  have hoffle : mac.getD 19 0 &&& 0x0F ≤ 15 := Nat.and_le_right
  have h4 : (mac.getD 19 0 &&& 0x0F) + 4 ≤ mac.length := by omega
  unfold spec_binary
  rw [drop_take_four _ _ h4]
  have hc0 : mac.getD (mac.getD 19 0 &&& 0x0F) 0 &&& 0x7F < 128 := by
    have := Nat.and_le_right (n := mac.getD (mac.getD 19 0 &&& 0x0F) 0) (m := 0x7F)
    omega
  have hc1 : mac.getD ((mac.getD 19 0 &&& 0x0F) + 1) 0 < 256 := getD_lt_256 _ _ hlt
  have hc2 : mac.getD ((mac.getD 19 0 &&& 0x0F) + 2) 0 < 256 := getD_lt_256 _ _ hlt
  have hc3 : mac.getD ((mac.getD 19 0 &&& 0x0F) + 3) 0 < 256 := getD_lt_256 _ _ hlt
  rw [and255_eq hc1, and255_eq hc2, and255_eq hc3]
  rw [pack4_or_eq _ _ _ _ hc0 hc1 hc2 hc3]
  simp only [List.foldl]
  ring

theorem chunksOf_nil (fuel n : Nat) : chunksOf fuel n [] = [] := by
  cases fuel <;> rfl

theorem bitsToBytes_eq_chunks (fuel : Nat) :
    ∀ l : List Nat, l.length ≤ fuel →
      ((chunksOf fuel 8 l).filter (fun g => g.length == 8)).map bitVal = bitsToBytes l := by
  induction fuel with
  | zero =>
      intro l hl
      have : l = [] := List.eq_nil_of_length_eq_zero (by omega)
      subst this
      rfl
  | succ fuel ih =>
      intro l hl
      rcases l with _ | ⟨b0, l⟩
      · rfl
      rcases l with _ | ⟨b1, l⟩
      · simp [chunksOf, chunksOf_nil, bitsToBytes]
      rcases l with _ | ⟨b2, l⟩
      · simp [chunksOf, chunksOf_nil, bitsToBytes]
      rcases l with _ | ⟨b3, l⟩
      · simp [chunksOf, chunksOf_nil, bitsToBytes]
      rcases l with _ | ⟨b4, l⟩
      · simp [chunksOf, chunksOf_nil, bitsToBytes]
      rcases l with _ | ⟨b5, l⟩
      · simp [chunksOf, chunksOf_nil, bitsToBytes]
      rcases l with _ | ⟨b6, l⟩
      · simp [chunksOf, chunksOf_nil, bitsToBytes]
      rcases l with _ | ⟨b7, l⟩
      · simp [chunksOf, chunksOf_nil, bitsToBytes]
      rcases l with _ | ⟨b8, l⟩
      · simp [chunksOf, chunksOf_nil, bitVal, bitsToBytes]
      · simp only [chunksOf, List.isEmpty_cons, Bool.false_eq_true, if_false,
          List.take_succ_cons, List.take_zero, List.drop_succ_cons, List.drop_zero]
        rw [List.filter_cons_of_pos (by rfl), List.map_cons]
        rw [ih _ (by simp at hl ⊢; omega)]
        simp [bitVal, bitsToBytes]

theorem bitsToBytes_length (fuel : Nat) :
    ∀ l : List Nat, l.length ≤ fuel → (bitsToBytes l).length = l.length / 8 := by
  induction fuel with
  | zero =>
      intro l hl
      have : l = [] := List.eq_nil_of_length_eq_zero (by omega)
      subst this
      rfl
  | succ fuel ih =>
      intro l hl
      rcases l with _ | ⟨b0, l⟩
      · rfl
      rcases l with _ | ⟨b1, l⟩
      · simp [bitsToBytes]
      rcases l with _ | ⟨b2, l⟩
      · simp [bitsToBytes]
      rcases l with _ | ⟨b3, l⟩
      · simp [bitsToBytes]
      rcases l with _ | ⟨b4, l⟩
      · simp [bitsToBytes]
      rcases l with _ | ⟨b5, l⟩
      · simp [bitsToBytes]
      rcases l with _ | ⟨b6, l⟩
      · simp [bitsToBytes]
      rcases l with _ | ⟨b7, l⟩
      · simp [bitsToBytes]
      · show (bitsToBytes (b0 :: b1 :: b2 :: b3 :: b4 :: b5 :: b6 :: b7 :: l)).length = _
        rw [bitsToBytes]
        have := ih l (by simp at hl; omega)
        simp only [List.length_cons, this]
        omega

theorem length_flatMap_to5bits (s : List Char) :
    (s.flatMap (fun c => to5bits (symVal c))).length = 5 * s.length := by
  induction s with
  | nil => rfl
  | cons c s ih =>
      rw [List.flatMap_cons, List.length_append, ih]
      simp only [to5bits, List.length_cons, List.length_nil]
      omega

theorem padTo8_eq (s : List Char) :
    padTo8 s = s ++ List.replicate ((8 - s.length % 8) % 8) 'A' := by
  unfold padTo8
  by_cases h : s.length % 8 = 0
  · rw [h]
    norm_num
  · have h8 : s.length % 8 < 8 := Nat.mod_lt _ (by norm_num)
    rw [if_pos (by omega)]
    congr 1
    congr 1
    omega

/-! ## Claim theorems -/

/-- C1: for every secret that decodes, every `digits ≥ 1`, every
`timeStepSeconds ≥ 1` and every epoch time `t` (whose counter fits the
8-byte big-endian encoding the spec prescribes), `generate_totp` returns
exactly the spec's truncated-HMAC value mod `10^digits`, zero-padded to
exactly `digits` characters; and on the RFC 6238 vector — the secret
decoding to the ASCII bytes of `"12345678901234567890"`, `digits = 8`,
step 30, `t = 59` — it returns `"94287082"`. -/
theorem C1_generate_refines_spec (secret : List Char) (key : List Nat) (digits ts t : Nat)
    (hk : base32_decode secret = some key) (hd : 1 ≤ digits) (hts : 1 ≤ ts)
    (hctr : t / ts < 2 ^ 64) :
    generate_totp secret digits ts t = spec_generate key digits ts t ∧
    (generate_totp secret digits ts t).length = digits ∧
    base32_decode rfc_secret = some rfc_key ∧
    generate_totp rfc_secret 8 30 59 = "94287082" := by
  have hmain : generate_totp secret digits ts t = spec_generate key digits ts t := by
    simp only [generate_totp, spec_generate, hk]
    rw [if_neg (by omega), if_neg (by omega)]
    rw [binary_eq _ (hmacSha1_length _ _) (hmacSha1_lt _ _)]
  refine ⟨hmain, ?_, by decide, by decide⟩
  rw [hmain]
  have hcode : spec_binary (hmacSha1 key (bytesBE 8 (t / ts))) % 10 ^ digits < 10 ^ digits :=
    Nat.mod_lt _ (by positivity)
  have hrepr :
      (Nat.repr (spec_binary (hmacSha1 key (bytesBE 8 (t / ts))) % 10 ^ digits)).length
        ≤ digits :=
    Nat.repr_length _ digits hd hcode
  have htos : toString (spec_binary (hmacSha1 key (bytesBE 8 (t / ts))) % 10 ^ digits)
      = Nat.repr (spec_binary (hmacSha1 key (bytesBE 8 (t / ts))) % 10 ^ digits) := rfl
  simp only [spec_generate, zfill, htos, String.length, List.length_append,
    List.length_replicate]
  simp only [String.length] at hrepr
  omega

/-- C1 witness: the theorem applied to the RFC 6238 vector. -/
theorem C1_witness :
    generate_totp rfc_secret 8 30 59 = spec_generate rfc_key 8 30 59 ∧
    (generate_totp rfc_secret 8 30 59).length = 8 ∧
    base32_decode rfc_secret = some rfc_key ∧
    generate_totp rfc_secret 8 30 59 = "94287082" :=
  C1_generate_refines_spec rfc_secret rfc_key 8 30 59 (by decide) (by decide) (by decide)
    (by decide)

/-- C2: on every input, `base32_decode` agrees with the spec's decoder —
uppercase, strip all spaces and `=`, fail iff a remaining character is
outside the alphabet, right-pad with the zero-valued symbol `'A'` to a
multiple of 8 symbols, concatenate 5-bit values MSB-first, slice into
8-bit groups discarding a short trailing group — and the empty input
decodes to the empty byte sequence without error. -/
theorem C2_decode_matches_spec (text : List Char) :
    base32_decode text = spec_decode text ∧ base32_decode [] = some [] := by
  refine ⟨?_, by decide⟩
  simp only [base32_decode, spec_decode, strip32]
  by_cases h :
      ((text.map Char.toUpper).filter (fun c => !(c == ' ') && !(c == '='))).all
        (fun c => base32_chars.contains c)
  · rw [if_pos h, if_pos h]
    rw [padTo8_eq]
    exact congrArg some (bitsToBytes_eq_chunks _ _ le_rfl).symm
  · rw [if_neg h, if_neg h]

/-- C8: the seconds-remaining arithmetic: for every `timeStepSeconds ≥ 1`
and every (floored) epoch time, the value is `ts - t % ts`, lies in
`[1, ts]`, and equals `ts` exactly on a window boundary; the source's
hard-coded expression is the `ts = 30` instance. -/
theorem C8_secondsRemaining_correct (ts t : Nat) (h : 1 ≤ ts) :
    secondsRemaining ts t = ts - t % ts ∧
    1 ≤ secondsRemaining ts t ∧ secondsRemaining ts t ≤ ts ∧
    (secondsRemaining ts t = ts ↔ t % ts = 0) ∧
    seconds_left t = secondsRemaining 30 t := by
  have hm : t % ts < ts := Nat.mod_lt _ (by omega)
  unfold secondsRemaining seconds_left
  exact ⟨rfl, by omega, by omega, by omega, rfl⟩

/-- C8 witness: the theorem applied at `ts = 30`, `t = 59`. -/
theorem C8_witness :
    secondsRemaining 30 59 = 30 - 59 % 30 ∧
    1 ≤ secondsRemaining 30 59 ∧ secondsRemaining 30 59 ≤ 30 ∧
    (secondsRemaining 30 59 = 30 ↔ 59 % 30 = 0) ∧
    seconds_left 59 = secondsRemaining 30 59 :=
  C8_secondsRemaining_correct 30 59 (by decide)

/-- C10: every accepted input with `k` symbols after stripping decodes to
exactly `5 * ceil(k / 8)` bytes — always a multiple of 5 — and for `k`
not a multiple of 8 this differs from standard Base32's `floor(5k/8)`. -/
theorem C10_decode_output_length (text : List Char) (bytes : List Nat)
    (h : base32_decode text = some bytes) :
    bytes.length = 5 * (((strip32 text).length + 7) / 8) ∧
    5 ∣ bytes.length ∧
    ((strip32 text).length % 8 ≠ 0 → bytes.length ≠ 5 * (strip32 text).length / 8) := by
  simp only [base32_decode] at h
  by_cases hall : (strip32 text).all (fun c => base32_chars.contains c)
  · rw [if_pos hall] at h
    have hb : bytes
        = bitsToBytes ((padTo8 (strip32 text)).flatMap (fun c => to5bits (symVal c))) :=
      (Option.some.inj h).symm
    rw [hb, bitsToBytes_length _ _ le_rfl, length_flatMap_to5bits, padTo8_eq]
    simp only [List.length_append, List.length_replicate]
    refine ⟨by omega, by omega, fun hne => by omega⟩
  · rw [if_neg hall] at h
    exact absurd h (by simp)

/-- C10 witness: the theorem applied to the two-symbol input `"GE"`,
which decodes to five bytes. -/
theorem C10_witness :
    base32_decode "GE".toList = some [49, 0, 0, 0, 0] ∧
    ([49, 0, 0, 0, 0] : List Nat).length = 5 * (((strip32 "GE".toList).length + 7) / 8) :=
  ⟨by decide, (C10_decode_output_length "GE".toList [49, 0, 0, 0, 0] (by decide)).1⟩

/-- C3 counterexample: on the undecodable secret `"1"`, `generate_totp`
does not fail with a distinct failure value — it returns the sentinel
string `"ERROR"` in place of a code, so the claim that it "never returns
a sentinel string" is false of the source. -/
theorem C3_cex :
    base32_decode "1".toList = none ∧ generate_totp "1".toList 6 30 0 = "ERROR" :=
  ⟨by decide, by decide⟩

/-- C3 amended: whenever the secret does not decode, `generate_totp`
returns the fixed sentinel string `"ERROR"`, which contains no decimal
digit, so a caller can still tell it apart from any real code. -/
theorem C3_generate_error_amended (secret : List Char) (digits ts t : Nat)
    (h : base32_decode secret = none) :
    generate_totp secret digits ts t = "ERROR" ∧
    ("ERROR".data.all fun c => !c.isDigit) = true := by
  constructor
  · simp only [generate_totp, h]
  · decide

/-- C3 witness: the amended theorem applied to the secret `"1"`. -/
theorem C3_witness :
    generate_totp "1".toList 6 30 0 = "ERROR" ∧
    ("ERROR".data.all fun c => !c.isDigit) = true :=
  C3_generate_error_amended "1".toList 6 30 0 (by decide)

/-- C4 counterexample: starting from the empty (invariant-satisfying)
store, `import_data` accepts a record whose secret `"1"` does not decode
— its shape check passes — so a record with an undecodable secret enters
the store and the claimed invariant is violated by `replaceAll`. -/
theorem C4_cex :
    storeOK [] = true ∧
    (import_data [] (JVal.jarr [bad_item])).2 = none ∧
    storeOK (import_data [] (JVal.jarr [bad_item])).1 = false :=
  ⟨rfl, rfl, by decide⟩

/-- C4 amended: the all-secrets-decode invariant is preserved by `add`
(which validates via the decoder), by `remove` and by `clear`; it is not
preserved by `replaceAll` (import), which validates only object shape. -/
theorem C4_store_invariant_amended (vs : List JVal) (name key : String) (i : Int)
    (h : storeOK vs = true) :
    storeOK (add_verifier vs name key).1 = true ∧
    storeOK (delete_verifier vs i).1 = true ∧
    storeOK (clear_all vs).1 = true := by
  refine ⟨?_, ?_, ?_⟩
  · unfold add_verifier
    split
    · exact h
    split
    · exact h
    rcases hdec : base32_decode key.toList with _ | val
    · simp only [hdec]
      exact h
    · have hdec' : base32_decode key.data = some val := hdec
      simp only [hdec, storeOK, List.all_append] at h ⊢
      simp [h, record_ok, jlookup, hdec, hdec']
  · unfold delete_verifier
    split
    · have hsub : vs.eraseIdx i.toNat ⊆ vs := List.eraseIdx_subset vs i.toNat
      simp only [storeOK, List.all_eq_true] at h ⊢
      exact fun x hx => h x (hsub hx)
    · exact h
  · unfold clear_all
    split
    · exact h
    · rfl

/-- C4 witness: the amended theorem applied to the empty store. -/
theorem C4_witness :
    storeOK (add_verifier [] "GitHub" "GEZDGNBV").1 = true ∧
    storeOK (delete_verifier [] 0).1 = true ∧
    storeOK (clear_all []).1 = true :=
  C4_store_invariant_amended [] "GitHub" "GEZDGNBV" 0 (by decide)

/-- C5 counterexample: an import record with an empty name and an
undecodable secret `"0"` passes the source's validation and is committed,
so the claim that import validates name non-emptiness and secret
decodability is false of the source. -/
theorem C5_cex :
    import_data [] (JVal.jarr [bad_item2]) = ([bad_item2], none) ∧
    base32_decode "0".toList = none :=
  ⟨rfl, by decide⟩

/-- C5 amended: import validates only that the input is an array whose
every element is an object carrying both a `name` and a `key` field; on
any failure it aborts with an error and the store is left unchanged; on
success the store is replaced wholesale by the incoming list.  Name
non-emptiness and secret decodability are not checked. -/
theorem C5_import_amended (vs : List JVal) (input : JVal) :
    ((import_data vs input).2 ≠ none → (import_data vs input).1 = vs) ∧
    ((import_data vs input).2 = none →
      ∃ items, input = JVal.jarr items ∧ items.all item_ok = true ∧
        (import_data vs input).1 = items) := by
  rcases input with _ | b | n | s | items | fs
  · exact ⟨fun _ => rfl, fun hn => absurd hn (by simp [import_data])⟩
  · exact ⟨fun _ => rfl, fun hn => absurd hn (by simp [import_data])⟩
  · exact ⟨fun _ => rfl, fun hn => absurd hn (by simp [import_data])⟩
  · exact ⟨fun _ => rfl, fun hn => absurd hn (by simp [import_data])⟩
  · by_cases hall : items.all item_ok
    · refine ⟨fun hne => absurd ?_ hne, fun _ => ⟨items, rfl, hall, ?_⟩⟩
      · simp [import_data, hall]
      · simp [import_data, hall]
    · refine ⟨fun _ => ?_, fun hn => absurd hn ?_⟩
      · simp [import_data, hall]
      · simp [import_data, hall]
  · exact ⟨fun _ => rfl, fun hn => absurd hn (by simp [import_data])⟩

/-- C5 witness: the amended theorem applied to a one-element import. -/
theorem C5_witness :
    ((import_data [] (JVal.jarr [bad_item])).2 ≠ none →
      (import_data [] (JVal.jarr [bad_item])).1 = []) ∧
    ((import_data [] (JVal.jarr [bad_item])).2 = none →
      ∃ items, JVal.jarr [bad_item] = JVal.jarr items ∧ items.all item_ok = true ∧
        (import_data [] (JVal.jarr [bad_item])).1 = items) :=
  C5_import_amended [] (JVal.jarr [bad_item])

/-- C6 counterexample: on storage that exists but does not parse
(`some none`), `load_verifiers` does not fail — it returns the empty
sequence, exactly as for absent storage, so the claim that load fails
with `CorruptStorage` (and returns empty only when no storage exists) is
false of the source. -/
theorem C6_cex :
    load_verifiers (some none) = JVal.jarr [] ∧ load_verifiers none = JVal.jarr [] :=
  ⟨rfl, rfl⟩

/-- C6 amended: load returns the parsed content (no schema check) when
the file exists and parses as JSON, and returns the empty sequence both
when no file exists and when the content fails to parse — corrupt
storage is downgraded to "treat as empty" after a warning dialog. -/
theorem C6_load_amended (st : Option (Option JVal)) :
    (∀ v, st = some (some v) → load_verifiers st = v) ∧
    (st = none ∨ st = some none → load_verifiers st = JVal.jarr []) := by
  rcases st with _ | _ | v
  · exact ⟨fun v h => by simp at h, fun _ => rfl⟩
  · exact ⟨fun v h => by simp at h, fun _ => rfl⟩
  · constructor
    · intro w h
      simp only [Option.some.injEq] at h
      rw [← h]
      rfl
    · intro h
      rcases h with h | h <;> simp at h
/-- C6 witness: the amended theorem applied to parsed storage. -/
theorem C6_witness :
    (∀ v, (some (some (JVal.jarr [sample_rec])) : Option (Option JVal)) = some (some v) →
      load_verifiers (some (some (JVal.jarr [sample_rec]))) = v) ∧
    ((some (some (JVal.jarr [sample_rec])) : Option (Option JVal)) = none ∨
        (some (some (JVal.jarr [sample_rec])) : Option (Option JVal)) = some none →
      load_verifiers (some (some (JVal.jarr [sample_rec]))) = JVal.jarr []) :=
  C6_load_amended (some (some (JVal.jarr [sample_rec])))

/-- C7 counterexample: removing at index 5 from a one-element store does
not fail with any error — the operation is a silent no-op — so the claim
that an out-of-range `remove` fails with `IndexOutOfRange` is false of
the source (the store is, however, left unchanged). -/
theorem C7_cex : delete_verifier [sample_rec] 5 = ([sample_rec], none) := rfl

/-- C7 amended: an out-of-range index (including any negative index) is a
silent no-op leaving the store unchanged and signalling no failure; an
in-range index removes exactly the record at that position, preserving
the order of the others. -/
theorem C7_delete_amended (vs : List JVal) (i : Int) :
    (¬(0 ≤ i ∧ i < (vs.length : Int)) → delete_verifier vs i = (vs, none)) ∧
    (∀ k : Nat, i = (k : Int) → k < vs.length →
      delete_verifier vs i = (vs.take k ++ vs.drop (k + 1), none)) := by
  constructor
  · intro h
    unfold delete_verifier
    rw [if_neg h]
  · rintro k rfl hk
    unfold delete_verifier
    rw [if_pos ⟨Int.ofNat_nonneg k, by exact_mod_cast hk⟩]
    rw [Int.toNat_ofNat]
    rw [List.eraseIdx_eq_take_drop_succ]

/-- C7 witness: the amended theorem applied at index 0 of a two-element
store, removing exactly the first record. -/
theorem C7_witness : delete_verifier [sample_rec, bad_item] 0 = ([bad_item], none) := by
  have h := (C7_delete_amended [sample_rec, bad_item] 0).2 0 rfl (by decide)
  simpa using h

/-- C9 counterexample: the save of a one-record store passes through the
truncated-file state `some none`, which is neither the previous complete
contents (here an empty array) nor the new complete contents, and which a
subsequent load reports as empty — so the claim that a partial write is
never observable is false of the source. -/
theorem C9_cex :
    some none ∈ save_steps (JVal.jarr [sample_rec]) ∧
    (some none : Option (Option JVal)) ≠ some (some (JVal.jarr [])) ∧
    some none ≠ save_verifiers (JVal.jarr [sample_rec]) ∧
    load_verifiers (some none) = JVal.jarr [] := by
  refine ⟨?_, ?_, ?_, rfl⟩
  · simp [save_steps]
  · simp
  · simp [save_verifiers]

/-- C9 amended: `save_verifiers` writes the full sequence in place
(truncate, then write), a completed save round-trips through load, and
the only observable crash states are the truncated (corrupt) file and
the completed write — there is no atomic temp-file-and-rename step. -/
theorem C9_save_amended (v : JVal) :
    load_verifiers (save_verifiers v) = v ∧
    (∀ s ∈ save_steps v, s = some none ∨ s = save_verifiers v) := by
  refine ⟨rfl, ?_⟩
  intro s hs
  simpa [save_steps, save_verifiers] using hs

/-- C9 witness: the amended theorem applied to the empty store. -/
theorem C9_witness :
    load_verifiers (save_verifiers (JVal.jarr [])) = JVal.jarr [] ∧
    (∀ s ∈ save_steps (JVal.jarr []), s = some none ∨ s = save_verifiers (JVal.jarr [])) :=
  C9_save_amended (JVal.jarr [])

end Fast2FA
